import Mathlib

/-!
Shallow embedding of the version type and version-indexed selector of
`widgetastic/utils.py` (classes `Version` and `VersionPick`), together with
theorems checking the natural-language specification against the code.

Modelling conventions:
* Python strings are Lean `String`s; character-level work is done on `.data`.
* `\d` / `[a-z]` of the regexes are modelled as ASCII digit / ASCII lowercase
  (non-ASCII digits are out of scope of every claim checked here).
* Python `float` values produced by `float()` on a decimal literal
  `\d+(\.\d+)?` are modelled exactly as rationals (`Rat`); no claim here
  depends on binary floating-point rounding.
* Python exceptions are modelled with `Except`; an operation that cannot
  raise is a plain function.
* `hash(vstring)` is modelled by `vstring` itself (Python's string hash is
  treated as injective: distinct strings give distinct hashes).
-/

/-- Python `str.isspace` for the ASCII whitespace characters stripped by
`str.strip()`. -/
def isPySpace (c : Char) : Bool :=
  c = ' ' || c = '\t' || c = '\n' || c = '\r' || c = '\x0b' || c = '\x0c'

/-- Python `str.strip()` (ASCII whitespace). -/
def pyStrip (s : String) : String :=
  String.mk (((s.data.dropWhile isPySpace).reverse.dropWhile isPySpace).reverse)

/-- ASCII lowercase letter, the `[a-z]` class of `component_re`. -/
def isLowerAZ (c : Char) : Bool :=
  'a' ≤ c && c ≤ 'z'

/-- Digits of digit runs, folded to the integer Python's `int()` returns. -/
def digitsToNat (l : List Char) : Nat :=
  l.foldl (fun n c => 10 * n + (c.toNat - 48)) 0

/-- Python `"x".split('-')` at the character-list level. -/
def splitDash : List Char → List (List Char)
  | [] => [[]]
  | c :: cs =>
    if c = '-' then [] :: splitDash cs
    else
      match splitDash cs with
      | [] => [[c]]
      | r :: rs => (c :: r) :: rs

/-- Does `p` occur literally at the start of `l`? -/
def startsWithChars : List Char → List Char → Bool
  | [], _ => true
  | _ :: _, [] => false
  | p :: ps, c :: cs => p = c && startsWithChars ps cs

/-- The numeric value of a suffix tail matching `(\d+(?:\.\d+)?)?$`
(`none` when the tail does not match the whole remainder).  The value is the
rational Python's `float()` computes from the decimal literal, and `0` when
the tail is absent, exactly as `normalized_suffix` does. -/
def tailVal (t : List Char) : Option Rat :=
  match t with
  | [] => some 0
  | _ =>
    let d := t.takeWhile Char.isDigit
    let r := t.dropWhile Char.isDigit
    if d = [] then none
    else
      match r with
      | [] => some (digitsToNat d : Rat)
      | '.' :: e =>
        if e ≠ [] && e.all Char.isDigit then
          some ((digitsToNat d : Rat) + (digitsToNat e : Rat) / (10 : Rat) ^ e.length)
        else none
      | _ => none

/-- Recognized pre-release suffix names, `Version.SUFFIXES`, with their
indices.  The names have pairwise distinct first letters, so the regex
alternation over them is deterministic. -/
def suffixIndex (s : String) : Option Nat :=
  if s = "nightly" then some 0
  else if s = "pre" then some 1
  else if s = "alpha" then some 2
  else if s = "beta" then some 3
  else if s = "rc" then some 4
  else none

/-- After removing the leading dash, one group of the suffix block must be a
recognized suffix name followed by the optional numeric tail; this returns
the remainder after the name. -/
def matchName (item : List Char) : Option (List Char) :=
  if startsWithChars ['n','i','g','h','t','l','y'] item then some (item.drop 7)
  else if startsWithChars ['p','r','e'] item then some (item.drop 3)
  else if startsWithChars ['a','l','p','h','a'] item then some (item.drop 5)
  else if startsWithChars ['b','e','t','a'] item then some (item.drop 4)
  else if startsWithChars ['r','c'] item then some (item.drop 2)
  else none

/-- One dash-delimited group of a suffix block: a recognized name plus a tail
matching `(\d+(?:\.\d+)?)?` that uses the rest of the group. -/
def itemOk (item : List Char) : Bool :=
  match matchName item with
  | some rest => (tailVal rest).isSome
  | none => false

/-- The end-anchored alternative `(?:-suff(?:\d+(?:\.\d+)?)?)+$` of
`component_re`: a dash, then dash-delimited groups each made of a recognized
suffix name and an optional numeric tail.  Because neither the names nor the
tails contain a dash, the regex's groups are exactly the dash-split pieces. -/
def isSuffixBlock : List Char → Bool
  | '-' :: cs => (splitDash cs).all itemOk
  | _ => false

/-- Merge digit runs and lowercase runs; every other character stands alone.
These are exactly the maximal matches of `\d+` and `[a-z]+`. -/
def sameClass (a b : Char) : Bool :=
  (a.isDigit && b.isDigit) || (isLowerAZ a && isLowerAZ b)

/-- Maximal runs of same-class characters, in order. -/
def runs : List Char → List (List Char)
  | [] => []
  | c :: cs =>
    match runs cs with
    | [] => [[c]]
    | [] :: rs => [c] :: [] :: rs
    | (d :: ds) :: rs => if sameClass c d then (c :: d :: ds) :: rs else [c] :: (d :: ds) :: rs

/-- The token stream of `component_re.findall`: left to right, a digit run, a
lowercase run, or a dot is a token; at a dash the end-anchored suffix block is
tried against the whole remainder (consuming everything on success); any
other character (whitespace included) is skipped, which is also what the
regex scan loop does when no alternative matches. -/
def scanRuns : List (List Char) → List (List Char)
  | [] => []
  | r :: rs =>
    match r with
    | [] => scanRuns rs
    | c :: _ =>
      if c.isDigit then r :: scanRuns rs
      else if isLowerAZ c then r :: scanRuns rs
      else if c = '.' then r :: scanRuns rs
      else if c = '-' then
        if isSuffixBlock (r ++ rs.flatten) then [r ++ rs.flatten] else scanRuns rs
      else scanRuns rs

/-- One parsed component: `int(tok)` when the token is all digits, otherwise
the (lowercase) string token, as in `Version.parse`. -/
inductive Comp where
  | num (n : Nat)
  | str (s : String)
deriving DecidableEq, Repr

/-- The state of a `Version` object after `parse`: the normalized raw string
`vstring`, the component list `version`, and the optional suffix token list
`suffix`. -/
structure Version where
  vstring : String
  version : List Comp
  suffix : Option (List String)
deriving DecidableEq, Repr

/-- Python exceptions raised by the code under scrutiny, by the spec's
error-taxonomy names. -/
inductive PyErr where
  | invalidInput
  | typeMismatch
  | malformedSuffix
  | emptySelector
deriving DecidableEq, Repr

/-- Component-token conversion: `int(tok)` succeeds exactly on all-digit
tokens (the tokens never carry signs, spaces or underscores), otherwise the
token stays a string. -/
def strToComp (x : String) : Comp :=
  if x.data ≠ [] && x.data.all Char.isDigit then .num (digitsToNat x.data) else .str x

/-- Last element of the token list (`components[-1]`). -/
def lastTok : List String → Option String
  | [] => none
  | [a] => some a
  | _ :: b :: rest => lastTok (b :: rest)

/-- The keyword normalization of `parse`: `"master"`, `"latest"` and
`"upstream"` all become the literal string `"master"`. -/
def normalizeRaw (t0 : String) : String :=
  if t0 = "master" || t0 = "latest" || t0 = "upstream" then "master" else t0

/-- The surviving tokens of `component_re.findall(vstring)` after the
`filter(lambda x: x and x != '.')` step. -/
def tokensOf (t : String) : List String :=
  ((scanRuns (runs t.data)).map String.mk).filter fun x => !(x = "") && !(x = ".")

/-- The tail of `parse` on the normalized string `t`: split a trailing
suffix block off the tokens and coerce the remaining tokens to integers
where possible. -/
def Version.ofRaw (t : String) : Version :=
  match lastTok (tokensOf t) with
  | some l =>
    match l.data with
    | '-' :: cs =>
      { vstring := t
        version := ((tokensOf t).dropLast).map strToComp
        suffix := some ((splitDash cs).map String.mk) }
    | _ => { vstring := t, version := (tokensOf t).map strToComp, suffix := none }
  | none => { vstring := t, version := [], suffix := none }

/-- `Version.parse` on a string input: strip, map the three keywords to
`"master"`, tokenize with `component_re.findall`, drop dots, split a trailing
suffix block off, and coerce the remaining tokens to integers where
possible. -/
def Version.parse (s : String) : Version :=
  Version.ofRaw (normalizeRaw (pyStrip s))

/-- `Version(vstring)` for a string-or-`None` constructor argument:
`None` raises `ValueError('Version string cannot be None')`. -/
def Version.construct : Option String → Except PyErr Version
  | none => .error .invalidInput
  | some s => .ok (Version.parse s)

/-- `suffix_item_re.match(item).groups()` plus `SUFFIXES.index` and
`float()`, i.e. one item of `normalized_suffix`; `none` marks the
`AttributeError`/`ValueError` a malformed item raises. -/
def parseSuffixItem (s : String) : Option (Nat × Rat) :=
  if s.data.takeWhile (fun c => !c.isDigit) = [] then none
  else
    match tailVal (s.data.dropWhile fun c => !c.isDigit),
        suffixIndex (String.mk (s.data.takeWhile fun c => !c.isDigit)) with
    | some q, some i => some (i, q)
    | _, _ => none

/-- Map `parseSuffixItem` over the items, failing if any item fails. -/
def traverseItems : List String → Option (List (Nat × Rat))
  | [] => some []
  | s :: rest =>
    match parseSuffixItem s, traverseItems rest with
    | some p, some ps => some (p :: ps)
    | _, _ => none

/-- `Version.normalized_suffix`: `[]` when there is no suffix, otherwise one
`(rank, numeric value)` pair per suffix item; `none` marks the exception a
malformed item raises. -/
def normalizedSuffix (v : Version) : Option (List (Nat × Rat)) :=
  match v.suffix with
  | none => some []
  | some items => traverseItems items

/-- `Version.__eq__` between two `Version`s: `version` lists equal and
`normalized_suffix` lists equal; any exception while computing the suffixes
is swallowed and yields `False`. -/
def eqV (a b : Version) : Bool :=
  if a.version = b.version then
    match normalizedSuffix a, normalizedSuffix b with
    | some x, some y => decide (x = y)
    | _, _ => false
  else false

/-- The memoized `Version.latest()` singleton, `Version('latest')`. -/
def latestV : Version := Version.parse "latest"

/-- The memoized `Version.lowest()` singleton, `Version('lowest')`. -/
def lowestV : Version := Version.parse "lowest"

/-- Python 3 `<` on two components: same-type comparison works, `int`
against `str` raises `TypeError`. -/
def compLt (a b : Comp) : Except PyErr Bool :=
  match a, b with
  | .num x, .num y => .ok (decide (x < y))
  | .str x, .str y => .ok (decide (x < y))
  | _, _ => .error .typeMismatch

/-- Python 3 list `<` on component lists: walk to the first non-equal pair
(`==` between an `int` and a `str` is `False`, never an error), compare it
with `<`, and fall back to length comparison on a tie. -/
def listLt : List Comp → List Comp → Except PyErr Bool
  | _, [] => .ok false
  | [], _ :: _ => .ok true
  | a :: as, b :: bs => if a = b then listLt as bs else compLt a b

/-- Python `<` on two `(rank, value)` tuples. -/
def pairLt (p q : Nat × Rat) : Bool :=
  decide (p.1 < q.1) || (decide (p.1 = q.1) && decide (p.2 < q.2))

/-- Python list `<` on normalized-suffix lists (all entries are tuples of the
same shape, so no exception can occur). -/
def pairsLt : List (Nat × Rat) → List (Nat × Rat) → Bool
  | _, [] => false
  | [], _ :: _ => true
  | p :: ps, q :: qs => if p = q then pairsLt ps qs else pairLt p q

/-- `Version.__lt__` between two `Version`s, following the source branch by
branch: equality, then the sentinel short-circuits (which use `__eq__`
against the memoized singletons), then the component-list comparison, then
the suffix rules.  Exceptions from the component comparison or from
`normalized_suffix` propagate. -/
def ltV (a b : Version) : Except PyErr Bool :=
  if eqV a b then .ok false
  else if eqV a latestV || eqV b lowestV then .ok false
  else if eqV a lowestV || eqV b latestV then .ok true
  else
    match listLt a.version b.version with
    | .error e => .error e
    | .ok true => .ok true
    | .ok false =>
      match a.suffix, b.suffix with
      | none, _ => .ok false
      | some _, none => .ok true
      | some _, some _ =>
        match normalizedSuffix a, normalizedSuffix b with
        | some x, some y => .ok (pairsLt x y)
        | _, _ => .error .malformedSuffix

/-- `Version.__le__`: `self < other or self == other`. -/
def leV (a b : Version) : Except PyErr Bool :=
  match ltV a b with
  | .error e => .error e
  | .ok true => .ok true
  | .ok false => .ok (eqV a b)

/-- `Version.__gt__`: `not (self <= other)`. -/
def gtV (a b : Version) : Except PyErr Bool :=
  match leV a b with
  | .error e => .error e
  | .ok r => .ok (!r)

/-- `hash(self)` is `hash(self.vstring)`; Python's string hash is modelled
as injective, so the hash is the normalized raw string itself. -/
def pyHash (v : Version) : String := v.vstring

/-- Decidable equality for `Except` results, so concrete comparison outcomes
can be settled by `decide`. -/
instance exceptDecEq {ε α : Type} [DecidableEq ε] [DecidableEq α] :
    DecidableEq (Except ε α) := fun x y =>
  match x, y with
  | .error a, .error b =>
    match decEq a b with
    | .isTrue h => .isTrue (by rw [h])
    | .isFalse h => .isFalse fun hh => by cases hh; exact h rfl
  | .ok a, .ok b =>
    match decEq a b with
    | .isTrue h => .isTrue (by rw [h])
    | .isFalse h => .isFalse fun hh => by cases hh; exact h rfl
  | .error _, .ok _ => .isFalse fun hh => by cases hh
  | .ok _, .error _ => .isFalse fun hh => by cases hh

/-- The value a resolution failure carries, and comparison errors escaping
`pick`: the "no matching version" error names the query and the available
keys, as in the `ValueError` message of `VersionPick.pick`. -/
inductive PickErr where
  | cmpErr (e : PyErr)
  | noMatch (query : Version) (available : List Version)
deriving DecidableEq, Repr

/-- `VersionPick`: the raw `version_introduced -> payload` mapping, in
insertion order. -/
structure VersionPick (α : Type) where
  version_dict : List (String × α)
deriving DecidableEq

/-- `VersionPick.__init__`: an empty dictionary raises
`ValueError('Passed an empty version pick dictionary.')`. -/
def mkVersionPick {α : Type} (d : List (String × α)) : Except PyErr (VersionPick α) :=
  if d.isEmpty then .error .emptySelector else .ok ⟨d⟩

/-- Insertion into the model of a Python `dict` keyed by `Version` objects:
the hash is `hash(vstring)` (injective model), and same-hash keys are
`==`-equal because `parse` is deterministic, so an insert overwrites exactly
the entry with the same `vstring` and otherwise appends. -/
def dictInsert {α : Type} (d : List (Version × α)) (k : Version) (v : α) :
    List (Version × α) :=
  if d.any fun e => e.1.vstring = k.vstring then
    d.map fun e => if e.1.vstring = k.vstring then (e.1, v) else e
  else d ++ [(k, v)]

/-- Build `{self.VERSION_CLASS(k): v for k, v in self.version_dict.items()}`
by inserting the entries in order. -/
def buildAux {α : Type} (acc : List (Version × α)) : List (String × α) → List (Version × α)
  | [] => acc
  | kv :: rest => buildAux (dictInsert acc (Version.parse kv.1) kv.2) rest

/-- The parsed-key dictionary `v_dict` of `VersionPick.pick`. -/
def buildVDict {α : Type} (l : List (String × α)) : List (Version × α) :=
  buildAux [] l

/-- `v_dict.get(key)` on the dict model: the value of the entry whose
`vstring` matches, if any. -/
def dictGet {α : Type} (d : List (Version × α)) (k : Version) : Option α :=
  (d.find? fun e => e.1.vstring = k.vstring).map fun e => e.2

/-- The candidate filter `[v for v in versions if v <= version]`, evaluated
left to right; a comparison exception aborts the comprehension. -/
def filterLe (q : Version) : List Version → Except PyErr (List Version)
  | [] => .ok []
  | v :: vs =>
    match leV v q with
    | .error e => .error e
    | .ok b =>
      match filterLe q vs with
      | .error e => .error e
      | .ok rest => .ok (if b then v :: rest else rest)

/-- Insert into a descending-sorted list: walk past every element not `<` the
new one (so ties keep insertion order), place it before the first smaller
element. -/
def insertDesc (x : Version) : List Version → Except PyErr (List Version)
  | [] => .ok [x]
  | y :: ys =>
    match ltV y x with
    | .error e => .error e
    | .ok true => .ok (x :: y :: ys)
    | .ok false =>
      match insertDesc x ys with
      | .error e => .error e
      | .ok r => .ok (y :: r)

/-- Model of `sorted(candidates, reverse=True)` as a stable insertion sort
driven by `__lt__`.  For comparators satisfying the order laws assumed by
the theorems below this returns the same list as CPython's stable sort. -/
def sortDescAux (acc : List Version) : List Version → Except PyErr (List Version)
  | [] => .ok acc
  | x :: xs =>
    match insertDesc x acc with
    | .error e => .error e
    | .ok acc2 => sortDescAux acc2 xs

/-- Descending sort of the candidate list. -/
def sortDesc (l : List Version) : Except PyErr (List Version) :=
  sortDescAux [] l

/-- `VersionPick.pick(version)` for a string query: parse keys and query,
keep the keys `<=` the query, sort them descending, return
`v_dict.get(best)` (so `.ok none` would model a `get` miss returning Python
`None`), or raise the "matching version was not found" error naming the
query and the parsed keys. -/
def pick {α : Type} (p : VersionPick α) (q : String) : Except PickErr (Option α) :=
  match filterLe (Version.parse q) ((buildVDict p.version_dict).map fun e => e.1) with
  | .error e => .error (.cmpErr e)
  | .ok cands =>
    match sortDesc cands with
    | .error e => .error (.cmpErr e)
    | .ok [] =>
      .error (.noMatch (Version.parse q) ((buildVDict p.version_dict).map fun e => e.1))
    | .ok (m :: _) => .ok (dictGet (buildVDict p.version_dict) m)

/-- Operand values a comparison may receive: an existing `Version`, a string
(coercible), or `None` (the uncoercible input every claim mentions:
`Version(None)` raises inside the coercion). -/
inductive PyVal where
  | ver (v : Version)
  | str (s : String)
  | noneV
deriving DecidableEq, Repr

/-- The `if not isinstance(other, Version): other = Version(other)` coercion
shared by `__lt__` and `__eq__`. -/
def coerceOp : PyVal → Except PyErr Version
  | .ver v => .ok v
  | .str s => .ok (Version.parse s)
  | .noneV => .error .invalidInput

/-- `Version.__lt__` against an arbitrary operand: a failing coercion is
re-raised as `ValueError('Cannot compare Version to ...')` (the spec's
type-mismatch error). -/
def ltOp (a : Version) (o : PyVal) : Except PyErr Bool :=
  match coerceOp o with
  | .error _ => .error .typeMismatch
  | .ok b => ltV a b

/-- `Version.__eq__` against an arbitrary operand: any exception, including
a failing coercion, is swallowed and the result is `False`. -/
def eqOp (a : Version) (o : PyVal) : Bool :=
  match coerceOp o with
  | .error _ => false
  | .ok b => eqV a b

theorem takeWhile_append_all {p r : List Char} {pred : Char → Bool}
    (h : ∀ c ∈ p, pred c = true) :
    (p ++ r).takeWhile pred = p ++ r.takeWhile pred := by
  induction p with
  | nil => rfl
  | cons c cs ih =>
    simp only [List.cons_append, List.takeWhile_cons, h c (by simp), if_true]
    rw [ih fun d hd => h d (by simp [hd])]

theorem dropWhile_append_all {p r : List Char} {pred : Char → Bool}
    (h : ∀ c ∈ p, pred c = true) :
    (p ++ r).dropWhile pred = r.dropWhile pred := by
  induction p with
  | nil => rfl
  | cons c cs ih =>
    simp only [List.cons_append, List.dropWhile_cons, h c (by simp)]
    exact ih fun d hd => h d (by simp [hd])

theorem startsWithChars_append {p l : List Char} (h : startsWithChars p l = true) :
    l = p ++ l.drop p.length := by
  induction p generalizing l with
  | nil => simp
  | cons a ps ih =>
    cases l with
    | nil => simp [startsWithChars] at h
    | cons c cs =>
      simp only [startsWithChars, Bool.and_eq_true, decide_eq_true_eq] at h
      obtain ⟨h1, h2⟩ := h
      subst h1
      simpa using ih h2

theorem tailVal_head_digit {c : Char} {cs : List Char}
    (h : (tailVal (c :: cs)).isSome = true) : c.isDigit = true := by
  by_cases hc : c.isDigit = true
  · exact hc
  · exfalso
    have : (c :: cs).takeWhile Char.isDigit = [] := by
      simp [List.takeWhile_cons, hc]
    unfold tailVal at h
    rw [this] at h
    simp at h

theorem parseSuffixItem_of_parts (name rest : List Char)
    (hne : name ≠ []) (hnd : ∀ c ∈ name, (!c.isDigit) = true)
    (hidx : (suffixIndex (String.mk name)).isSome = true)
    (htail : (tailVal rest).isSome = true) :
    (parseSuffixItem (String.mk (name ++ rest))).isSome = true := by
  have hdata : (String.mk (name ++ rest)).data = name ++ rest := rfl
  have htk : (name ++ rest).takeWhile (fun c => !c.isDigit)
      = name ++ rest.takeWhile (fun c => !c.isDigit) := takeWhile_append_all hnd
  have hdp : (name ++ rest).dropWhile (fun c => !c.isDigit)
      = rest.dropWhile (fun c => !c.isDigit) := dropWhile_append_all hnd
  have hrest : rest.takeWhile (fun c => !c.isDigit) = [] ∧ rest.dropWhile (fun c => !c.isDigit) = rest := by
    cases rest with
    | nil => simp
    | cons c cs =>
      have hc : c.isDigit = true := tailVal_head_digit htail
      constructor
      · simp [List.takeWhile_cons, hc]
      · simp [List.dropWhile_cons, hc]
  unfold parseSuffixItem
  rw [hdata, htk, hdp, hrest.1, hrest.2, List.append_nil]
  rw [if_neg hne]
  rcases Option.isSome_iff_exists.mp htail with ⟨q, hq⟩
  rcases Option.isSome_iff_exists.mp hidx with ⟨i, hi⟩
  rw [hq, hi]
  rfl

theorem itemOk_wf {item : List Char} (h : itemOk item = true) :
    (parseSuffixItem (String.mk item)).isSome = true := by
  unfold itemOk matchName at h
  by_cases h1 : startsWithChars ['n','i','g','h','t','l','y'] item = true
  · rw [if_pos h1] at h
    rw [startsWithChars_append h1]
    exact parseSuffixItem_of_parts _ _ (by decide) (by decide) (by decide) h
  rw [if_neg h1] at h
  by_cases h2 : startsWithChars ['p','r','e'] item = true
  · rw [if_pos h2] at h
    rw [startsWithChars_append h2]
    exact parseSuffixItem_of_parts _ _ (by decide) (by decide) (by decide) h
  rw [if_neg h2] at h
  by_cases h3 : startsWithChars ['a','l','p','h','a'] item = true
  · rw [if_pos h3] at h
    rw [startsWithChars_append h3]
    exact parseSuffixItem_of_parts _ _ (by decide) (by decide) (by decide) h
  rw [if_neg h3] at h
  by_cases h4 : startsWithChars ['b','e','t','a'] item = true
  · rw [if_pos h4] at h
    rw [startsWithChars_append h4]
    exact parseSuffixItem_of_parts _ _ (by decide) (by decide) (by decide) h
  rw [if_neg h4] at h
  by_cases h5 : startsWithChars ['r','c'] item = true
  · rw [if_pos h5] at h
    rw [startsWithChars_append h5]
    exact parseSuffixItem_of_parts _ _ (by decide) (by decide) (by decide) h
  rw [if_neg h5] at h
  cases h

theorem scanRuns_dash :
    ∀ (rs : List (List Char)) (t : List Char), t ∈ scanRuns rs →
      ∀ cs, t = '-' :: cs → (splitDash cs).all itemOk = true := by
  intro rs
  induction rs with
  | nil => intro t ht; simp [scanRuns] at ht
  | cons r rest ih =>
    intro t ht cs htc
    cases r with
    | nil =>
      rw [show scanRuns ([] :: rest) = scanRuns rest from rfl] at ht
      exact ih t ht cs htc
    | cons c cr =>
      simp only [scanRuns] at ht
      by_cases h1 : c.isDigit = true
      · rw [if_pos h1] at ht
        rcases List.mem_cons.mp ht with h | h
        · rw [htc] at h; cases h; simp at h1
        · exact ih t h cs htc
      rw [if_neg h1] at ht
      by_cases h2 : isLowerAZ c = true
      · rw [if_pos h2] at ht
        rcases List.mem_cons.mp ht with h | h
        · rw [htc] at h; cases h; simp [isLowerAZ] at h2
        · exact ih t h cs htc
      rw [if_neg h2] at ht
      by_cases h3 : c = '.'
      · rw [if_pos h3] at ht
        rcases List.mem_cons.mp ht with h | h
        · rw [htc] at h; cases h; cases h3
        · exact ih t h cs htc
      rw [if_neg h3] at ht
      by_cases h4 : c = '-'
      · rw [if_pos h4] at ht
        by_cases h5 : isSuffixBlock (c :: cr ++ rest.flatten) = true
        · rw [if_pos h5] at ht
          rcases List.mem_cons.mp ht with h | h
          · rw [htc] at h
            subst h4
            have hcs : cs = cr ++ rest.flatten := by
              have := h
              simp only [List.cons_append] at this
              exact (List.cons.injEq _ _ _ _).mp this |>.2
            rw [hcs]
            have : isSuffixBlock ('-' :: (cr ++ rest.flatten)) = true := by
              simpa using h5
            simpa [isSuffixBlock] using this
          · simp at h
        · rw [if_neg h5] at ht
          exact ih t ht cs htc
      rw [if_neg h4] at ht
      exact ih t ht cs htc

theorem lastTok_mem : ∀ {l : List String} {a : String}, lastTok l = some a → a ∈ l := by
  intro l
  induction l with
  | nil => intro a h; cases h
  | cons x xs ih =>
    intro a h
    cases xs with
    | nil =>
      cases h
      simp
    | cons y ys =>
      rw [show lastTok (x :: y :: ys) = lastTok (y :: ys) from rfl] at h
      exact List.mem_cons_of_mem x (ih h)

theorem splitDash_ne_nil : ∀ cs : List Char, splitDash cs ≠ [] := by
  intro cs
  cases cs with
  | nil => simp [splitDash]
  | cons c cr =>
    unfold splitDash
    by_cases h : c = '-'
    · rw [if_pos h]; simp
    · rw [if_neg h]
      cases splitDash cr <;> simp

theorem traverseItems_all {items : List String}
    (h : ∀ i ∈ items, (parseSuffixItem i).isSome = true) :
    ∃ x, traverseItems items = some x ∧ x.length = items.length := by
  induction items with
  | nil => exact ⟨[], rfl, rfl⟩
  | cons i rest ih =>
    rcases Option.isSome_iff_exists.mp (h i (by simp)) with ⟨p, hp⟩
    rcases ih (fun j hj => h j (by simp [hj])) with ⟨x, hx, hlen⟩
    refine ⟨p :: x, ?_, by simp [hlen]⟩
    unfold traverseItems
    rw [hp, hx]

theorem ofRaw_norm (t : String) :
    ∃ x, normalizedSuffix (Version.ofRaw t) = some x ∧
      ((Version.ofRaw t).suffix = none → x = []) ∧
      ((Version.ofRaw t).suffix ≠ none → x ≠ []) := by
  unfold Version.ofRaw
  split
  case h_2 => exact ⟨[], rfl, fun _ => rfl, by simp [normalizedSuffix]⟩
  case h_1 l hl =>
    split
    case h_2 => exact ⟨[], rfl, fun _ => rfl, by simp [normalizedSuffix]⟩
    case h_1 cs hd =>
      have hmem : l ∈ tokensOf t := lastTok_mem hl
      have hmap : l ∈ (scanRuns (runs t.data)).map String.mk :=
        (List.mem_filter.mp hmem).1
      rcases List.mem_map.mp hmap with ⟨u, hu, he⟩
      have hud : u = '-' :: cs := by
        have : (String.mk u).data = u := rfl
        rw [← he] at hd
        rw [← hd, this]
      have hall := scanRuns_dash _ u hu cs hud
      have hitems : ∀ i ∈ (splitDash cs).map String.mk, (parseSuffixItem i).isSome = true := by
        intro i hi
        rcases List.mem_map.mp hi with ⟨j, hj, hji⟩
        have := (List.all_eq_true.mp hall) j hj
        rw [← hji]
        exact itemOk_wf this
      rcases traverseItems_all hitems with ⟨x, hx, hlen⟩
      refine ⟨x, ?_, ?_, ?_⟩
      · simpa [normalizedSuffix] using hx
      · intro hnone; simp at hnone
      · intro _ hxnil
        have h1 : (splitDash cs).length ≠ 0 :=
          fun hz => splitDash_ne_nil cs (List.length_eq_zero.mp hz)
        rw [hxnil] at hlen
        simp at hlen
        exact h1 (by simp [← hlen])

theorem parse_norm (s : String) :
    ∃ x, normalizedSuffix (Version.parse s) = some x ∧
      ((Version.parse s).suffix = none → x = []) ∧
      ((Version.parse s).suffix ≠ none → x ≠ []) :=
  ofRaw_norm (normalizeRaw (pyStrip s))

theorem eqV_refl {a : Version} {x : List (Nat × Rat)}
    (h : normalizedSuffix a = some x) : eqV a a = true := by
  unfold eqV
  rw [if_pos rfl, h]
  simp

theorem parse_eq_refl (s : String) :
    eqV (Version.parse s) (Version.parse s) = true := by
  rcases parse_norm s with ⟨x, hx, -, -⟩
  exact eqV_refl hx

theorem eqV_symm (a b : Version) : eqV a b = eqV b a := by
  unfold eqV
  by_cases h : a.version = b.version
  · rw [if_pos h, if_pos h.symm]
    cases normalizedSuffix a <;> cases normalizedSuffix b <;> simp [eq_comm]
  · rw [if_neg h, if_neg fun hh => h hh.symm]

theorem listLt_self : ∀ l : List Comp, listLt l l = .ok false := by
  intro l
  induction l with
  | nil => rfl
  | cons a as ih => unfold listLt; rw [if_pos rfl]; exact ih

theorem pairsLt_self : ∀ x : List (Nat × Rat), pairsLt x x = false := by
  intro x
  induction x with
  | nil => rfl
  | cons p ps ih => unfold pairsLt; rw [if_pos rfl]; exact ih

theorem ofRaw_vstring (t : String) : (Version.ofRaw t).vstring = t := by
  unfold Version.ofRaw
  split
  · split <;> rfl
  · rfl

/-- Claim C1: in `Version.__lt__`, for non-sentinel, non-equal versions with
different component lists, the claim says the lexicographic comparison of
the component lists alone decides the result.  The code only returns early
when `self.version < other.version`; when the components differ the other
way it still falls into the suffix rules.  Evaluated at the failing input:
`Version("2.0-beta1") < Version("1.0")` — the components compare not-less,
yet the result is `True` because the suffix branch fires. -/
theorem c1_components_bug_eval :
    eqV (Version.parse "2.0-beta1") (Version.parse "1.0") = false ∧
    eqV (Version.parse "2.0-beta1") latestV = false ∧
    eqV (Version.parse "2.0-beta1") lowestV = false ∧
    eqV (Version.parse "1.0") latestV = false ∧
    eqV (Version.parse "1.0") lowestV = false ∧
    (Version.parse "2.0-beta1").version ≠ (Version.parse "1.0").version ∧
    listLt (Version.parse "2.0-beta1").version (Version.parse "1.0").version = .ok false ∧
    ltV (Version.parse "2.0-beta1") (Version.parse "1.0") = .ok true := by
  decide

/-- Claim C2: the comparison operators are claimed to form a total order
(antisymmetry in particular).  Evaluated at a failing pair: both
`Version("3.0-rc1") < Version("2.0")` and `Version("2.0") < Version("3.0-rc1")`
return `True` while the two are not equal, so antisymmetry fails. -/
theorem c2_antisymmetry_bug_eval :
    eqV (Version.parse "3.0-rc1") (Version.parse "2.0") = false ∧
    ltV (Version.parse "3.0-rc1") (Version.parse "2.0") = .ok true ∧
    ltV (Version.parse "2.0") (Version.parse "3.0-rc1") = .ok true := by
  decide

/-- Claim C4, counterexample: the claim's suffix rules are stated for every
pair with equal components, but the sentinel short-circuits run first and
use structural equality, so for components equal to the `lowest` sentinel's
the outcomes are inverted: `Version("lowest") < Version("lowest-beta1")` is
`True` (claim: un-suffixed is never less) and
`Version("lowest-beta1") < Version("lowest")` is `False` (claim: suffixed is
less). -/
theorem c4_sentinel_counterexample :
    (Version.parse "lowest").version = (Version.parse "lowest-beta1").version ∧
    (Version.parse "lowest").suffix = none ∧
    (Version.parse "lowest-beta1").suffix = some ["beta1"] ∧
    ltV (Version.parse "lowest") (Version.parse "lowest-beta1") = .ok true ∧
    ltV (Version.parse "lowest-beta1") (Version.parse "lowest") = .ok false := by
  decide

/-- Claim C4, amended: for parsed versions with equal components *neither of
which compares equal to a sentinel*, an un-suffixed version is never less,
a suffixed version is less than the un-suffixed one, and two suffixed
versions compare lexicographically by their normalized (rank, value) pairs;
the three concrete examples of the claim hold as stated. -/
theorem c4_suffix_order_amended (s t : String)
    (hv : (Version.parse s).version = (Version.parse t).version)
    (ha1 : eqV (Version.parse s) latestV = false)
    (ha2 : eqV (Version.parse s) lowestV = false)
    (hb1 : eqV (Version.parse t) latestV = false)
    (hb2 : eqV (Version.parse t) lowestV = false) :
    ((Version.parse s).suffix = none →
      ltV (Version.parse s) (Version.parse t) = .ok false) ∧
    ((Version.parse s).suffix = none → (Version.parse t).suffix ≠ none →
      ltV (Version.parse t) (Version.parse s) = .ok true) ∧
    (∀ x y, (Version.parse s).suffix ≠ none → (Version.parse t).suffix ≠ none →
      normalizedSuffix (Version.parse s) = some x →
      normalizedSuffix (Version.parse t) = some y →
      ltV (Version.parse s) (Version.parse t) = .ok (pairsLt x y)) ∧
    ltV (Version.parse "1.0.0") (Version.parse "1.0.0-beta1") = .ok false ∧
    ltV (Version.parse "1.0.0-beta1") (Version.parse "1.0.0") = .ok true ∧
    ltV (Version.parse "1.0.0-alpha1") (Version.parse "1.0.0-beta1") = .ok true := by
  have hl : listLt (Version.parse s).version (Version.parse t).version = .ok false := by
    rw [hv]; exact listLt_self _
  have hl2 : listLt (Version.parse t).version (Version.parse s).version = .ok false := by
    rw [hv]; exact listLt_self _
  refine ⟨?_, ?_, ?_, by decide, by decide, by decide⟩
  · intro hsa
    by_cases he : eqV (Version.parse s) (Version.parse t) = true
    · simp [ltV, he]
    · have he' : eqV (Version.parse s) (Version.parse t) = false := by simpa using he
      simp [ltV, he', ha1, ha2, hb1, hb2, hl, hsa]
  · intro hsa hsb
    obtain ⟨items, hitems⟩ : ∃ items, (Version.parse t).suffix = some items := by
      cases hb : (Version.parse t).suffix with
      | none => exact absurd hb hsb
      | some i => exact ⟨i, rfl⟩
    have hna : normalizedSuffix (Version.parse s) = some [] := by
      simp [normalizedSuffix, hsa]
    rcases parse_norm t with ⟨y, hy, -, hyne⟩
    have hyne' : y ≠ [] := hyne hsb
    have heb : eqV (Version.parse t) (Version.parse s) = false := by
      unfold eqV
      rw [if_pos hv.symm, hy, hna]
      simpa using hyne'
    simp [ltV, heb, hb1, hb2, ha1, ha2, hl2, hitems, hsa]
  · intro x y hsa hsb hnx hny
    obtain ⟨ia, hia⟩ : ∃ i, (Version.parse s).suffix = some i := by
      cases hb : (Version.parse s).suffix with
      | none => exact absurd hb hsa
      | some i => exact ⟨i, rfl⟩
    obtain ⟨ib, hib⟩ : ∃ i, (Version.parse t).suffix = some i := by
      cases hb : (Version.parse t).suffix with
      | none => exact absurd hb hsb
      | some i => exact ⟨i, rfl⟩
    by_cases hxy : x = y
    · subst hxy
      have he : eqV (Version.parse s) (Version.parse t) = true := by
        unfold eqV
        rw [if_pos hv, hnx, hny]
        simp
      rw [pairsLt_self]
      simp [ltV, he]
    · have he' : eqV (Version.parse s) (Version.parse t) = false := by
        unfold eqV
        rw [if_pos hv, hnx, hny]
        simpa using hxy
      simp [ltV, he', ha1, ha2, hb1, hb2, hl, hia, hib, hnx, hny]

/-- Claim C4, witness: the amended theorem applied at the concrete pair
`"9.1"` and `"9.1-rc2"`. -/
theorem c4_suffix_order_amended_witness :
    ltV (Version.parse "9.1") (Version.parse "9.1-rc2") = .ok false ∧
    ltV (Version.parse "9.1-rc2") (Version.parse "9.1") = .ok true := by
  have h := c4_suffix_order_amended "9.1" "9.1-rc2" (by decide) (by decide) (by decide)
    (by decide) (by decide)
  exact ⟨h.1 (by decide), h.2.1 (by decide) (by decide)⟩

/-- Claim C5: the sentinels bound every version that does not itself compare
equal to a sentinel: `lowest() < x`, `x < latest()` and
`lowest() < latest()`.  The statement quantifies over arbitrary `Version`
states (even ones whose components would raise in a component comparison),
which shows the sentinel checks short-circuit before any component
comparison. -/
theorem c5_sentinel_bounds (v : Version)
    (h1 : eqV v latestV = false) (h2 : eqV v lowestV = false) :
    ltV lowestV v = .ok true ∧ ltV v latestV = .ok true ∧
    ltV lowestV latestV = .ok true := by
  have e1 : eqV lowestV v = false := by rw [eqV_symm]; exact h2
  have d1 : eqV lowestV latestV = false := by decide
  have d2 : eqV lowestV lowestV = true := by decide
  have d3 : eqV latestV latestV = true := by decide
  have d4 : eqV latestV lowestV = false := by decide
  refine ⟨?_, ?_, by decide⟩
  · simp [ltV, e1, d1, d2, h2]
  · simp [ltV, h1, h2, d3, d4]

/-- Claim C5, witness: the sentinel bounds applied at `Version("1.0")`. -/
theorem c5_sentinel_bounds_witness :
    ltV lowestV (Version.parse "1.0") = .ok true ∧
    ltV (Version.parse "1.0") latestV = .ok true := by
  have h := c5_sentinel_bounds (Version.parse "1.0") (by decide) (by decide)
  exact ⟨h.1, h.2.1⟩

/-- Claim C6, counterexample: `str(VersionValue(s))` does not recover the
trimmed input for every `s`: the input `"latest"` is normalized to
`"master"`. -/
theorem c6_str_counterexample :
    (Version.parse "latest").vstring ≠ pyStrip "latest" := by
  decide

/-- Claim C6, amended: construction is deterministic (`parse` is a function)
and `VersionValue(s) == VersionValue(s)` for every string `s`; but
`str(VersionValue(s))` recovers the trimmed input only when the trimmed
input is not one of the keywords `"latest"`/`"upstream"` that the
constructor rewrites to `"master"`. -/
theorem c6_eq_refl_str_amended (s : String) :
    eqV (Version.parse s) (Version.parse s) = true ∧
    (pyStrip s ≠ "latest" → pyStrip s ≠ "upstream" →
      (Version.parse s).vstring = pyStrip s) := by
  refine ⟨parse_eq_refl s, fun hl hu => ?_⟩
  show (Version.ofRaw (normalizeRaw (pyStrip s))).vstring = pyStrip s
  rw [ofRaw_vstring]
  unfold normalizeRaw
  by_cases hm : pyStrip s = "master"
  · rw [if_pos (by simp [hm])]; exact hm.symm
  · rw [if_neg (by simp [hm, hl, hu])]

/-- Claim C6, witness: reflexive equality and string recovery at the
concrete input `" 1.0 "`. -/
theorem c6_eq_refl_str_amended_witness :
    eqV (Version.parse " 1.0 ") (Version.parse " 1.0 ") = true ∧
    (Version.parse " 1.0 ").vstring = pyStrip " 1.0 " := by
  have h := c6_eq_refl_str_amended " 1.0 "
  exact ⟨h.1, h.2 (by decide) (by decide)⟩

/-- Claim C7: equality against any operand is total (it is a plain boolean
function) and returns `False` for the uncoercible operand `None`, while the
strict ordering raises the type-mismatch error for that same operand. -/
theorem c7_eq_total_lt_raises (a : Version) :
    eqOp a PyVal.noneV = false ∧ ltOp a PyVal.noneV = .error .typeMismatch :=
  ⟨rfl, rfl⟩

/-- Claim C8, counterexample: constructing from the empty string does not
fail — `parse` accepts it and yields a value with no components. -/
theorem c8_empty_string_counterexample :
    Version.construct (some "") ≠ .error PyErr.invalidInput := by
  decide

/-- Claim C8, amended: `Version(None)` fails with the invalid-input error and
an empty selector mapping fails with the empty-selector-config error, but the
empty string is accepted and parses to a version with empty components. -/
theorem c8_errors_amended :
    Version.construct none = .error .invalidInput ∧
    Version.construct (some "") = .ok { vstring := "", version := [], suffix := none } ∧
    mkVersionPick ([] : List (String × Nat)) = .error .emptySelector := by
  refine ⟨rfl, by decide, rfl⟩

/-- Claim C9, counterexample: `Version("master")` does not have empty
components (it has the single string component `"master"`), and sentinel
handling is not identity-based: the parsed value compares `==` to the
memoized `latest()` singleton. -/
theorem c9_master_counterexample :
    (Version.parse "master").version ≠ [] ∧
    eqV (Version.parse "master") latestV = true := by
  decide

/-- Claim C9, amended: `"master"`, `"latest"` and `"upstream"` all normalize
to the literal `"master"`, which is parsed like any ordinary string and
yields the single component `"master"` with no suffix; the resulting value
is structurally equal to the `latest()` singleton, because the sentinel
checks in `__lt__` use `__eq__` (components plus normalized suffix), not
object identity — so such a value behaves exactly like the sentinel in
comparisons. -/
theorem c9_master_amended :
    Version.parse "master" = Version.parse "latest" ∧
    Version.parse "latest" = Version.parse "upstream" ∧
    (Version.parse "master").vstring = "master" ∧
    (Version.parse "master").version = [Comp.str "master"] ∧
    (Version.parse "master").suffix = none ∧
    eqV (Version.parse "master") latestV = true ∧
    ltV (Version.parse "master") latestV = .ok false ∧
    ltV latestV (Version.parse "master") = .ok false := by
  decide

/-- Claim C10: the hash depends only on the normalized raw string while
`==` depends only on components and normalized suffixes, so `==`-equal
values with different hashes exist: `"1.0-beta"` vs `"1.0-beta0"` (both
normalize the suffix to `[(3, 0)]`) and `"01"` vs `"1"`. -/
theorem c10_hash_eq_mismatch :
    eqV (Version.parse "1.0-beta") (Version.parse "1.0-beta0") = true ∧
    pyHash (Version.parse "1.0-beta") ≠ pyHash (Version.parse "1.0-beta0") ∧
    eqV (Version.parse "01") (Version.parse "1") = true ∧
    pyHash (Version.parse "01") ≠ pyHash (Version.parse "1") := by
  decide

theorem buildAux_nodup {α : Type} (l : List (String × α)) :
    ∀ acc : List (Version × α),
      (l.map fun kv => (Version.parse kv.1).vstring).Nodup →
      (∀ e ∈ acc, e.1.vstring ∉ l.map fun kv => (Version.parse kv.1).vstring) →
      buildAux acc l = acc ++ l.map fun kv => (Version.parse kv.1, kv.2) := by
  induction l with
  | nil => intro acc _ _; simp [buildAux]
  | cons kv rest ih =>
    intro acc hnd hacc
    have hins : dictInsert acc (Version.parse kv.1) kv.2
        = acc ++ [(Version.parse kv.1, kv.2)] := by
      unfold dictInsert
      rw [if_neg ?hcond]
      case hcond =>
        intro hany
        simp only [List.any_eq_true, decide_eq_true_eq] at hany
        rcases hany with ⟨e, he, hvs⟩
        refine hacc e he ?_
        rw [List.map_cons]
        exact List.mem_cons.mpr (Or.inl hvs)
    rw [show buildAux acc (kv :: rest)
        = buildAux (dictInsert acc (Version.parse kv.1) kv.2) rest from rfl, hins]
    have hnd' : (rest.map fun kv => (Version.parse kv.1).vstring).Nodup := by
      simpa using (List.nodup_cons.mp (by simpa using hnd)).2
    have hhd : (Version.parse kv.1).vstring ∉ rest.map fun kv => (Version.parse kv.1).vstring := by
      exact (List.nodup_cons.mp (by simpa using hnd)).1
    rw [ih (acc ++ [(Version.parse kv.1, kv.2)]) hnd' ?hacc2]
    · simp
    case hacc2 =>
      intro e he
      rcases List.mem_append.mp he with h | h
      · intro hmem
        exact hacc e h (by simp only [List.map_cons, List.mem_cons]; right; exact hmem)
      · have : e = (Version.parse kv.1, kv.2) := by simpa using h
        rw [this]
        exact hhd

theorem leV_eq (a b : Version) {r : Bool} (h : ltV a b = .ok r) :
    leV a b = .ok (r || eqV a b) := by
  unfold leV
  rw [h]
  cases r <;> simp

theorem filterLe_ok (q : Version) : ∀ l : List Version,
    (∀ v ∈ l, ∃ r, ltV v q = .ok r) →
    ∃ cands, filterLe q l = .ok cands ∧
      (∀ v, v ∈ cands ↔ v ∈ l ∧ leV v q = .ok true) := by
  intro l
  induction l with
  | nil => exact fun _ => ⟨[], rfl, by simp⟩
  | cons v vs ih =>
    intro h
    obtain ⟨r, hr⟩ := h v (by simp)
    have hle := leV_eq v q hr
    rcases ih (fun w hw => h w (by simp [hw])) with ⟨rest, hrest, hmem⟩
    cases hb : (r || eqV v q) with
    | false =>
      refine ⟨rest, ?_, ?_⟩
      · unfold filterLe
        rw [hle, hrest, hb]
        rfl
      · intro w
        constructor
        · intro hw
          have := (hmem w).mp hw
          exact ⟨by simp [this.1], this.2⟩
        · rintro ⟨hwm, hwle⟩
          rcases List.mem_cons.mp hwm with rfl | hwm'
          · rw [hle, hb] at hwle
            cases hwle
          · exact (hmem w).mpr ⟨hwm', hwle⟩
    | true =>
      refine ⟨v :: rest, ?_, ?_⟩
      · unfold filterLe
        rw [hle, hrest, hb]
        rfl
      · intro w
        constructor
        · intro hw
          rcases List.mem_cons.mp hw with rfl | hw'
          · exact ⟨by simp, by rw [hle, hb]⟩
          · have := (hmem w).mp hw'
            exact ⟨by simp [this.1], this.2⟩
        · rintro ⟨hwm, hwle⟩
          rcases List.mem_cons.mp hwm with rfl | hwm'
          · simp
          · exact List.mem_cons_of_mem _ ((hmem w).mpr ⟨hwm', hwle⟩)

theorem insertDesc_ok (S : List Version)
    (hok : ∀ a ∈ S, ∀ b ∈ S, ∃ r, ltV a b = .ok r)
    (hanti : ∀ a ∈ S, ∀ b ∈ S, ¬(ltV a b = .ok true ∧ ltV b a = .ok true))
    (hneg : ∀ a ∈ S, ∀ b ∈ S, ∀ c ∈ S,
      ltV a b = .ok false → ltV b c = .ok false → ltV a c = .ok false) :
    ∀ (l : List Version) (x : Version), x ∈ S → (∀ y ∈ l, y ∈ S) →
      l.Pairwise (fun u v => ltV u v = .ok false) →
      ∃ r, insertDesc x l = .ok r ∧ (∀ z, z ∈ r ↔ z = x ∨ z ∈ l) ∧
        r.Pairwise (fun u v => ltV u v = .ok false) := by
  intro l
  induction l with
  | nil => exact fun x _ _ _ => ⟨[x], rfl, by simp, by simp⟩
  | cons y ys ih =>
    intro x hx hl hp
    have hy : y ∈ S := hl y (by simp)
    obtain ⟨b, hb⟩ := hok y hy x hx
    have hys : ∀ z ∈ ys, z ∈ S := fun z hz => hl z (by simp [hz])
    cases b with
    | true =>
      have hxy : ltV x y = .ok false := by
        obtain ⟨b2, hb2⟩ := hok x hx y hy
        cases b2 with
        | true => exact absurd ⟨hb2, hb⟩ (hanti x hx y hy)
        | false => exact hb2
      refine ⟨x :: y :: ys, ?_, by simp, ?_⟩
      · unfold insertDesc
        rw [hb]
      · refine List.Pairwise.cons ?_ hp
        intro z hz
        rcases List.mem_cons.mp hz with rfl | hz'
        · exact hxy
        · have hyz : ltV y z = .ok false := (List.pairwise_cons.mp hp).1 z hz'
          exact hneg x hx y hy z (hys z hz') hxy hyz
    | false =>
      obtain ⟨r, hr, hmemr, hpr⟩ := ih x hx hys (List.pairwise_cons.mp hp).2
      refine ⟨y :: r, ?_, ?_, ?_⟩
      · unfold insertDesc
        rw [hb, hr]
      · intro z
        simp only [List.mem_cons, hmemr z]
        tauto
      · refine List.Pairwise.cons ?_ hpr
        intro z hz
        rcases (hmemr z).mp hz with rfl | hz'
        · exact hb
        · exact (List.pairwise_cons.mp hp).1 z hz'

theorem sortDescAux_ok (S : List Version)
    (hok : ∀ a ∈ S, ∀ b ∈ S, ∃ r, ltV a b = .ok r)
    (hanti : ∀ a ∈ S, ∀ b ∈ S, ¬(ltV a b = .ok true ∧ ltV b a = .ok true))
    (hneg : ∀ a ∈ S, ∀ b ∈ S, ∀ c ∈ S,
      ltV a b = .ok false → ltV b c = .ok false → ltV a c = .ok false) :
    ∀ (l acc : List Version), (∀ y ∈ l, y ∈ S) → (∀ y ∈ acc, y ∈ S) →
      acc.Pairwise (fun u v => ltV u v = .ok false) →
      ∃ r, sortDescAux acc l = .ok r ∧ (∀ z, z ∈ r ↔ z ∈ acc ∨ z ∈ l) ∧
        r.Pairwise (fun u v => ltV u v = .ok false) := by
  intro l
  induction l with
  | nil => exact fun acc _ hacc hp => ⟨acc, rfl, by simp, hp⟩
  | cons x xs ih =>
    intro acc hl hacc hp
    obtain ⟨acc2, hins, hmem2, hp2⟩ :=
      insertDesc_ok S hok hanti hneg acc x (hl x (by simp)) hacc hp
    have hacc2 : ∀ y ∈ acc2, y ∈ S := by
      intro y hy
      rcases (hmem2 y).mp hy with rfl | hy'
      · exact hl y (by simp)
      · exact hacc y hy'
    obtain ⟨r, hr, hmemr, hpr⟩ := ih acc2 (fun y hy => hl y (by simp [hy])) hacc2 hp2
    refine ⟨r, ?_, ?_, hpr⟩
    · unfold sortDescAux
      rw [hins]
      exact hr
    · intro z
      rw [hmemr z]
      simp only [hmem2 z, List.mem_cons]
      tauto

theorem dictGet_map {α : Type} : ∀ (l : List (String × α)) (kv : String × α),
    (l.map fun kv => (Version.parse kv.1).vstring).Nodup →
    kv ∈ l →
    dictGet (l.map fun e => (Version.parse e.1, e.2)) (Version.parse kv.1) = some kv.2 := by
  intro l
  induction l with
  | nil => intro kv _ h; cases h
  | cons e rest ih =>
    intro kv hnd hkv
    rw [List.map_cons] at hnd
    have hnd' := List.nodup_cons.mp hnd
    rcases List.mem_cons.mp hkv with heq | hkv'
    · subst heq
      have hfind : List.find? (fun x => x.1.vstring = (Version.parse kv.1).vstring)
          ((Version.parse kv.1, kv.2) :: rest.map fun x => (Version.parse x.1, x.2))
          = some (Version.parse kv.1, kv.2) :=
        List.find?_cons_of_pos _ (by simp)
      unfold dictGet
      rw [List.map_cons, hfind]
      rfl
    · have hne : ¬ ((Version.parse e.1).vstring = (Version.parse kv.1).vstring) := by
        intro hvs
        apply hnd'.1
        rw [hvs]
        exact List.mem_map.mpr ⟨kv, hkv', rfl⟩
      have hfind : List.find? (fun x => x.1.vstring = (Version.parse kv.1).vstring)
          ((Version.parse e.1, e.2) :: rest.map fun x => (Version.parse x.1, x.2))
          = List.find? (fun x => x.1.vstring = (Version.parse kv.1).vstring)
              (rest.map fun x => (Version.parse x.1, x.2)) :=
        List.find?_cons_of_neg _ (by simpa using hne)
      unfold dictGet
      rw [List.map_cons, hfind]
      exact ih kv hnd'.2 hkv'

/-- Claim C3: for a version dictionary whose parsed keys have distinct
normalized raw strings and compare consistently (comparisons succeed, and
the strict order is antisymmetric, negatively transitive, and trichotomous
with `==` on the key set — which the claim presupposes by speaking of "the
greatest such key"), `pick` returns the payload of a greatest key `<=` the
query (an exactly-equal key counts as a match, and the returned key is
never `>` the query), and when no key is `<=` the query it fails with the
no-matching-version error carrying the query and the available keys. -/
theorem c3_pick_resolution {α : Type} (dict : List (String × α)) (q : String)
    (hdist : (dict.map fun kv => (Version.parse kv.1).vstring).Nodup)
    (hok : ∀ a ∈ Version.parse q :: dict.map fun kv => Version.parse kv.1,
      ∀ b ∈ Version.parse q :: dict.map fun kv => Version.parse kv.1,
      ∃ r, ltV a b = .ok r)
    (hanti : ∀ a ∈ Version.parse q :: dict.map fun kv => Version.parse kv.1,
      ∀ b ∈ Version.parse q :: dict.map fun kv => Version.parse kv.1,
      ¬(ltV a b = .ok true ∧ ltV b a = .ok true))
    (hneg : ∀ a ∈ Version.parse q :: dict.map fun kv => Version.parse kv.1,
      ∀ b ∈ Version.parse q :: dict.map fun kv => Version.parse kv.1,
      ∀ c ∈ Version.parse q :: dict.map fun kv => Version.parse kv.1,
      ltV a b = .ok false → ltV b c = .ok false → ltV a c = .ok false)
    (htri : ∀ a ∈ dict.map fun kv => Version.parse kv.1,
      ∀ b ∈ dict.map fun kv => Version.parse kv.1,
      ltV a b = .ok true ∨ ltV b a = .ok true ∨ eqV a b = true) :
    ((∃ kv ∈ dict, leV (Version.parse kv.1) (Version.parse q) = .ok true) →
      ∃ kv ∈ dict, pick ⟨dict⟩ q = .ok (some kv.2) ∧
        leV (Version.parse kv.1) (Version.parse q) = .ok true ∧
        gtV (Version.parse kv.1) (Version.parse q) = .ok false ∧
        ∀ kv2 ∈ dict, leV (Version.parse kv2.1) (Version.parse q) = .ok true →
          leV (Version.parse kv2.1) (Version.parse kv.1) = .ok true) ∧
    ((∀ kv ∈ dict, ¬ leV (Version.parse kv.1) (Version.parse q) = .ok true) →
      pick ⟨dict⟩ q = .error (.noMatch (Version.parse q)
        (dict.map fun kv => Version.parse kv.1))) := by
  have hbuild : buildVDict dict = dict.map fun e => (Version.parse e.1, e.2) :=
    buildAux_nodup dict [] hdist (by simp)
  have hkeys : ((buildVDict dict).map fun e => e.1) = dict.map fun kv => Version.parse kv.1 := by
    rw [hbuild, List.map_map]
    rfl
  have harg : ∀ v ∈ dict.map fun kv => Version.parse kv.1,
      ∃ r, ltV v (Version.parse q) = .ok r := by
    intro v hv
    exact hok v (List.mem_cons_of_mem _ hv) (Version.parse q) (List.mem_cons_self _ _)
  have hfl : ∃ cands, filterLe (Version.parse q) (dict.map fun kv => Version.parse kv.1)
      = .ok cands ∧ ∀ v, v ∈ cands ↔ v ∈ (dict.map fun kv => Version.parse kv.1) ∧
        leV v (Version.parse q) = .ok true :=
    filterLe_ok _ _ harg
  obtain ⟨cands, hcands, hcmem⟩ := hfl
  have hcS : ∀ v ∈ cands, v ∈ Version.parse q :: dict.map fun kv => Version.parse kv.1 :=
    fun v hv => List.mem_cons_of_mem _ ((hcmem v).mp hv).1
  have hsrt : ∃ r, sortDescAux [] cands = .ok r ∧
      (∀ z, z ∈ r ↔ z ∈ ([] : List Version) ∨ z ∈ cands) ∧
      r.Pairwise (fun u v => ltV u v = .ok false) :=
    sortDescAux_ok _ hok hanti hneg cands [] hcS (by simp) (by simp)
  obtain ⟨sorted, hs, hsmem, hsp⟩ := hsrt
  have hpick0 : pick ⟨dict⟩ q
      = match sortDesc cands with
        | .error e => .error (.cmpErr e)
        | .ok [] => .error (.noMatch (Version.parse q) (dict.map fun kv => Version.parse kv.1))
        | .ok (m :: _) => .ok (dictGet (buildVDict dict) m) := by
    unfold pick
    rw [show (⟨dict⟩ : VersionPick α).version_dict = dict from rfl, hkeys, hcands]
  constructor
  · rintro ⟨kv0, hkv0, hle0⟩
    have hk0keys : Version.parse kv0.1 ∈ dict.map fun kv => Version.parse kv.1 :=
      List.mem_map.mpr ⟨kv0, hkv0, rfl⟩
    have hc0 : Version.parse kv0.1 ∈ cands := (hcmem _).mpr ⟨hk0keys, hle0⟩
    cases sorted with
    | nil =>
      exfalso
      have := (hsmem (Version.parse kv0.1)).mpr (Or.inr hc0)
      simp at this
    | cons m rest =>
      have hmmem : m ∈ cands := by
        have := (hsmem m).mp (List.mem_cons_self _ _)
        rcases this with h | h
        · simp at h
        · exact h
      have hmkeys : m ∈ dict.map fun kv => Version.parse kv.1 := ((hcmem m).mp hmmem).1
      have hmS : m ∈ Version.parse q :: dict.map fun kv => Version.parse kv.1 :=
        List.mem_cons_of_mem _ hmkeys
      have hlem : leV m (Version.parse q) = .ok true := ((hcmem m).mp hmmem).2
      obtain ⟨kvm, hkvm, hme⟩ := List.mem_map.mp hmkeys
      have hget : dictGet (buildVDict dict) m = some kvm.2 := by
        rw [hbuild, ← hme]
        exact dictGet_map dict kvm hdist hkvm
      have hpick : pick ⟨dict⟩ q = .ok (some kvm.2) := by
        rw [hpick0, show sortDesc cands = .ok (m :: rest) from hs]
        show Except.ok (dictGet (buildVDict dict) m) = Except.ok (some kvm.2)
        rw [hget]
      refine ⟨kvm, hkvm, hpick, ?_, ?_, ?_⟩
      · rw [hme]; exact hlem
      · rw [hme]
        unfold gtV
        rw [hlem]
        rfl
      · intro kv2 hkv2 hle2
        have hk2keys : Version.parse kv2.1 ∈ dict.map fun kv => Version.parse kv.1 :=
          List.mem_map.mpr ⟨kv2, hkv2, rfl⟩
        have hk2S : Version.parse kv2.1 ∈ Version.parse q :: dict.map fun kv => Version.parse kv.1 :=
          List.mem_cons_of_mem _ hk2keys
        have hc2 : Version.parse kv2.1 ∈ cands := (hcmem _).mpr ⟨hk2keys, hle2⟩
        have hmem2 : Version.parse kv2.1 ∈ m :: rest := (hsmem _).mpr (Or.inr hc2)
        rw [hme]
        rcases List.mem_cons.mp hmem2 with heq2 | hrest2
        · rw [heq2]
          have hr : ∃ r, ltV m m = .ok r := hok m hmS m hmS
          obtain ⟨r, hr⟩ := hr
          have he : eqV m m = true := by rw [← hme]; exact parse_eq_refl _
          rw [leV_eq m m hr, he]
          simp
        · have hnltm : ltV m (Version.parse kv2.1) = .ok false :=
            (List.pairwise_cons.mp hsp).1 _ hrest2
          have htri2 : ltV (Version.parse kv2.1) m = .ok true ∨
              ltV m (Version.parse kv2.1) = .ok true ∨
              eqV (Version.parse kv2.1) m = true := htri _ hk2keys _ hmkeys
          rcases htri2 with h | h | h
          · unfold leV
            rw [h]
          · have hcontr : (Except.ok true : Except PyErr Bool) = .ok false := h.symm.trans hnltm
            simp at hcontr
          · have hr : ∃ r, ltV (Version.parse kv2.1) m = .ok r := hok _ hk2S _ hmS
            obtain ⟨r, hr⟩ := hr
            rw [leV_eq _ _ hr, h]
            simp
  · intro hno
    have hcnil : cands = [] := by
      cases hc : cands with
      | nil => rfl
      | cons v vs =>
        exfalso
        have hv : v ∈ cands := by rw [hc]; exact List.mem_cons_self _ _
        have hvv := (hcmem v).mp hv
        obtain ⟨kv2, hkv2, hve⟩ := List.mem_map.mp hvv.1
        exact hno kv2 hkv2 (by rw [hve]; exact hvv.2)
    rw [hpick0, hcnil]
    rfl

/-- Claim C3, witness: the resolution theorem applied to the spec's example
dictionary and the query `"1.2.0"`, which resolves to payload `"A"`. -/
theorem c3_pick_resolution_witness :
    ∃ kv ∈ [("1.0.0", "A"), ("2.5.0", "B")],
      pick ⟨[("1.0.0", "A"), ("2.5.0", "B")]⟩ "1.2.0" = .ok (some kv.2) ∧
      leV (Version.parse kv.1) (Version.parse "1.2.0") = .ok true ∧
      gtV (Version.parse kv.1) (Version.parse "1.2.0") = .ok false ∧
      ∀ kv2 ∈ [("1.0.0", "A"), ("2.5.0", "B")],
        leV (Version.parse kv2.1) (Version.parse "1.2.0") = .ok true →
        leV (Version.parse kv2.1) (Version.parse kv.1) = .ok true :=
  (c3_pick_resolution [("1.0.0", "A"), ("2.5.0", "B")] "1.2.0" (by decide) (by decide)
    (by decide) (by decide) (by decide)).1 ⟨("1.0.0", "A"), by simp, by decide⟩
